import Mathlib

/-!
Verification of the specification-evaluation core of the DnaChisel repository,
centred on the two representative built-in specifications
`EnforceGCContent` and `AvoidNonuniqueSegments`.

Sequences are embedded as `List Char`, scores as `ℚ` (GC content) or `ℤ`
(repeat counts).  The classes `Location`, `SpecEvaluation` and the biotools
helpers (`reverse_complement`, `gc_content`) are not part of the provided
source files, so they are modelled from the spec where noted; everything
else is translated directly from
`dnachisel/builtin_specifications/AvoidNonUniqueSegments.py` and
`dnachisel/builtin_specifications/EnforceGCContent.py`.
-/

namespace DnaChisel

/-- Modelled from the spec: `Location` is an immutable half-open integer
interval `[start, end)` over the sequence (§3, §4.1).  The `strand`
attribute is omitted: every location handled by the claims below is a
plain forward interval (`Location(start, end)` with default strand).
`end` is a Lean keyword, so the field is called `stop`. -/
structure Loc where
  start : Nat
  stop : Nat
  deriving DecidableEq, Repr

/-- Modelled from the spec (§4.1): `overlap_region(other)` returns the
Location `[max(start1,start2), min(end1,end2))` if it has positive length,
else the sentinel "no overlap" value (`None`, here `none`). -/
def overlapRegion (a b : Loc) : Option Loc :=
  if max a.start b.start < min a.stop b.stop then
    some ⟨max a.start b.start, min a.stop b.stop⟩
  else
    none

/-- Modelled from the spec (§4.1): `extended(margin)` returns
`[start - margin, end + margin)`, clipped to a non-negative start (which
`Nat` subtraction does automatically) and with no upper clipping. -/
def Loc.extended (a : Loc) (margin : Nat) : Loc :=
  ⟨a.start - margin, a.stop + margin⟩

/-- Modelled from the spec (§4.1): `extract_sequence(sequence)` returns the
slice `sequence[start:end]` (the forward-strand case; all locations used by
the claims are forward). -/
def Loc.extractSequence (a : Loc) (sequence : List Char) : List Char :=
  (sequence.drop a.start).take (a.stop - a.start)

/-- Lexicographic order on locations by `(start, end)` (spec §4.1:
"Comparison/ordering: lexicographic by `(start, end)`"), used to sort
breach-location lists. -/
def locLe (a b : Loc) : Prop :=
  a.start < b.start ∨ (a.start = b.start ∧ a.stop ≤ b.stop)

instance : DecidableRel locLe := fun a b =>
  inferInstanceAs
    (Decidable (a.start < b.start ∨ (a.start = b.start ∧ a.stop ≤ b.stop)))

instance : IsTotal Loc locLe :=
  ⟨fun a b => by unfold locLe; omega⟩

instance : IsTrans Loc locLe :=
  ⟨fun a b c h1 h2 => by unfold locLe at h1 h2 ⊢; omega⟩

/-- Modelled from the spec: the nucleotide complement used by the
reverse-complement service (A↔T, G↔C); other symbols are left unchanged. -/
def complementChar (c : Char) : Char :=
  if c = 'A' then 'T'
  else if c = 'T' then 'A'
  else if c = 'G' then 'C'
  else if c = 'C' then 'G'
  else c

/-- Modelled from the spec (§6): the reverse-complement service
`reverse_complement(sequence)`: complement every nucleotide and reverse. -/
def reverseComplement (sequence : List Char) : List Char :=
  (sequence.map complementChar).reverse

/-- Modelled from the spec (§3, §4.5): the part of a `SpecEvaluation` the
claims are about — the numeric `score` and the ordered list of breach
`Location`s (the diagnostic message and back-references are omitted).
The score type is a parameter (ℤ for repeat counts, ℚ for GC breaches). -/
structure SpecEval (α : Type) where
  score : α
  locations : List Loc
  deriving DecidableEq, Repr

/-! ## AvoidNonuniqueSegments
Translated from
`src/dnachisel/builtin_specifications/AvoidNonUniqueSegments.py`. -/

/-- The state of an `AvoidNonuniqueSegments` specification:
`min_length`, `location`, `include_reverse_complement` (from `__init__`). -/
structure ANSSpec where
  min_length : Nat
  location : Option Loc
  include_reverse_complement : Bool
  deriving DecidableEq, Repr

/-- `AvoidNonuniqueSegments.initialize_on_problem`: if `location` is `None`,
set it to `Location(0, len(problem.sequence))`.  The Python method mutates
`self`; the mutation is embedded as returning the updated record. -/
def ANSSpec.initialize_on_problem (self : ANSSpec) (seqLen : Nat) : ANSSpec :=
  match self.location with
  | none => { self with location := some ⟨0, seqLen⟩ }
  | some _ => self

/-- The forward k-mer entries built by the first loop of
`AvoidNonuniqueSegments.evaluate`:
for `i in range(len(sequence) - min_length)` the k-mer
`sequence[i:i+min_length]` with occurrence `(i, i + min_length)`.
(Note the loop bound is `len(sequence) - min_length`, exclusive.) -/
def forwardKmerEntries (sequence : List Char) (k : Nat) :
    List (List Char × (Nat × Nat)) :=
  (List.range (sequence.length - k)).map
    (fun i => ((sequence.drop i).take k, (i, i + k)))

/-- The reverse-complement k-mer entries built by the second loop of
`AvoidNonuniqueSegments.evaluate`: for `i in range(len(sequence) - min_length)`
the k-mer `rev_complement[i:i+min_length]` with the position mapped back to
forward coordinates `(len(sequence) - (i+k), len(sequence) - i)`. -/
def revCompKmerEntries (sequence : List Char) (k : Nat) :
    List (List Char × (Nat × Nat)) :=
  let rc := reverseComplement sequence
  (List.range (sequence.length - k)).map
    (fun i => ((rc.drop i).take k,
               (sequence.length - (i + k), sequence.length - i)))

/-- All `(kmer, occurrence)` entries inserted into the `kmers_locations`
defaultdict by `AvoidNonuniqueSegments.evaluate`, in insertion order. -/
def kmerEntries (sequence : List Char) (k : Nat) (includeRC : Bool) :
    List (List Char × (Nat × Nat)) :=
  forwardKmerEntries sequence k ++
    (if includeRC then revCompKmerEntries sequence k else [])

/-- The occurrence list `kmers_locations[kmer]` for a given k-mer: the
positions of all entries carrying that k-mer, in insertion order. -/
def kmerPositions (entries : List (List Char × (Nat × Nat)))
    (kmer : List Char) : List (Nat × Nat) :=
  (entries.filter (fun e => e.1 = kmer)).map (fun e => e.2)

/-- Python's `min(positions_list, key=lambda p: p[0])` starting from a first
candidate: keep the current element unless a strictly smaller start appears
later (ties keep the earlier element, as Python's `min` does). -/
def minByStart : List (Nat × Nat) → (Nat × Nat) → (Nat × Nat)
  | [], acc => acc
  | p :: rest, acc => minByStart rest (if p.1 < acc.1 then p else acc)

/-- `min(positions_list, key=lambda p: p[0])` on a non-empty list
(`[]` is returned for the empty list, which `evaluate` never queries:
every occurrence list in the dict has at least one element). -/
def firstOccurrence : List (Nat × Nat) → Nat × Nat
  | [] => (0, 0)
  | p :: rest => minByStart rest p

/-- The sorted breach-location list computed by
`AvoidNonuniqueSegments.evaluate` (lines 64-68 of the source): one
`Location(*min(positions_list, key=p[0]))` per k-mer group occurring more
than once, sorted.  The distinct k-mer groups are recovered with `dedup`;
the pre-sort order of the Python dict is unobservable after `sorted`
(locations comparing equal under `locLe` are identical). -/
def nonUniqueLocations (sequence : List Char) (k : Nat) (includeRC : Bool) :
    List Loc :=
  let entries := kmerEntries sequence k includeRC
  let groups := (entries.map (fun e => e.1)).dedup
  let firsts :=
    (groups.filter (fun km => 1 < (kmerPositions entries km).length)).map
      (fun km =>
        let p := firstOccurrence (kmerPositions entries km)
        Loc.mk p.1 p.2)
  firsts.insertionSort locLe

/-- `AvoidNonuniqueSegments.evaluate`: extract the bound region
(`self.location.extract_sequence`, which fails on an unbound spec, hence the
`Option` result), build the k-mer occurrence mapping, and return score `0`
with no locations when no group repeats, else score `-len(locations)` with
the sorted first-occurrence locations. -/
def ANSSpec.evaluate (self : ANSSpec) (problemSequence : List Char) :
    Option (SpecEval Int) :=
  self.location.map (fun loc =>
    let sequence := loc.extractSequence problemSequence
    let locations :=
      nonUniqueLocations sequence self.min_length
        self.include_reverse_complement
    if locations = [] then
      { score := 0, locations := [] }
    else
      { score := -(locations.length : Int), locations := locations })

/-- The result of `Specification.localized` for `AvoidNonuniqueSegments`:
either the designated Void specification (recording its parent) or an
`AvoidNonuniqueSegments` specification. -/
inductive ANSLocalized where
  | void (parent : ANSSpec)
  | spec (s : ANSSpec)
  deriving DecidableEq, Repr

/-- `AvoidNonuniqueSegments.localized`: compute
`self.location.overlap_region(location)` (which fails on an unbound spec,
hence the `Option` result); return the Void specification when there is no
overlap and `self` itself (unchanged) otherwise. -/
def ANSSpec.localized (self : ANSSpec) (location : Loc) :
    Option ANSLocalized :=
  self.location.map (fun selfLoc =>
    match overlapRegion selfLoc location with
    | none => .void self
    | some _ => .spec self)

/-! ## EnforceGCContent
Translated from
`src/dnachisel/builtin_specifications/EnforceGCContent.py`. -/

/-- The state of an `EnforceGCContent` specification (from `__init__`):
`target`, `mini`, `maxi`, `window`, `location`, `boost`.  GC fractions and
breach magnitudes are embedded as rationals. -/
structure GCSpec where
  target : Option ℚ
  mini : ℚ
  maxi : ℚ
  window : Option Nat
  location : Option Loc
  boost : ℚ
  deriving DecidableEq, Repr

/-- `EnforceGCContent.__init__`: if `target` is not `None`, `mini` and
`maxi` are both set to `target`; all parameters are then stored verbatim.
The body contains no validation and no raise path, so the constructor is a
total function. -/
def GCSpec.init (mini maxi : ℚ) (target : Option ℚ) (window : Option Nat)
    (location : Option Loc) (boost : ℚ) : GCSpec :=
  match target with
  | some t =>
    { target := some t, mini := t, maxi := t, window := window,
      location := location, boost := boost }
  | none =>
    { target := none, mini := mini, maxi := maxi, window := window,
      location := location, boost := boost }

/-- `EnforceGCContent.initialize_on_problem`: return a copy bound to
`Location(0, len(problem.sequence))` when `location` is `None`, else
return `self` unchanged. -/
def GCSpec.initialize_on_problem (self : GCSpec) (seqLen : Nat) : GCSpec :=
  match self.location with
  | none => { self with location := some ⟨0, seqLen⟩ }
  | some _ => self

/-- The fraction of G/C symbols in a sequence (0 on the empty sequence,
where ℚ division by zero yields 0). -/
def gcFraction (sequence : List Char) : ℚ :=
  ((sequence.countP (fun c => c = 'G' ∨ c = 'C') : ℚ)) / (sequence.length : ℚ)

/-- Modelled from the spec (§6): the GC-content service
`gc_content(sequence, window)` returns the sequence of GC fractions of every
full sliding window of the given length (one per start position
`0 .. len - window`), or the single whole-sequence fraction when `window`
is `None`. -/
def gcContent (sequence : List Char) (window : Option Nat) : List ℚ :=
  match window with
  | none => [gcFraction sequence]
  | some w =>
    if sequence.length < w then []
    else
      (List.range (sequence.length - w + 1)).map
        (fun i => gcFraction ((sequence.drop i).take w))

/-- The per-window breach magnitude of `EnforceGCContent.evaluate`:
`max(0, mini - gc) + max(0, gc - maxi)`. -/
def gcBreach (mini maxi gc : ℚ) : ℚ :=
  max 0 (mini - gc) + max 0 (gc - maxi)

/-- The indices of the breaching windows,
`(breaches > 0).nonzero()[0]` in the source: the positions (window starts
within the evaluated region) whose breach magnitude is positive. -/
def breachesStarts (breaches : List ℚ) : List Nat :=
  (breaches.enum.filter (fun p => 0 < p.2)).map (fun p => p.1)

/-- The merging loop of `EnforceGCContent.evaluate` (lines 86-99): walk the
remaining breach starts keeping a current run `[current_start, last_end)`;
a start `i` with `i > last_end + window` flushes the run (offset by
`wstart`) and begins a new one, otherwise it extends the run's end to
`i + window`; the final run is appended at the end. -/
def mergeBreachRuns (window wstart : Nat) :
    List Nat → Nat → Nat → List Loc
  | [], currentStart, lastEnd =>
    [⟨wstart + currentStart, wstart + lastEnd⟩]
  | i :: rest, currentStart, lastEnd =>
    if lastEnd + window < i then
      Loc.mk (wstart + currentStart) (wstart + lastEnd) ::
        mergeBreachRuns window wstart rest i (i + window)
    else
      mergeBreachRuns window wstart rest currentStart (i + window)

/-- The breach-location branch of `EnforceGCContent.evaluate`
(lines 76-99): no start yields no location; a single start yields
`[start, start + window]` when a window is set (note: without the `wstart`
offset, as in the source) and the whole region `[wstart, wend]` otherwise;
two or more starts are merged by `mergeBreachRuns` (this branch is only
reached with a window set: without one there is at most one breach value). -/
def breachesLocations (window : Option Nat) (wstart wend : Nat)
    (starts : List Nat) : List Loc :=
  match starts, window with
  | [], _ => []
  | [s], some w => [⟨s, s + w⟩]
  | [_], none => [⟨wstart, wend⟩]
  | s :: rest, some w => mergeBreachRuns w wstart rest s (s + w)
  | _ :: _ :: _, none => []

/-- `EnforceGCContent.evaluate`: take the bound location (or the full
sequence when unbound), extract the region, compute the windowed GC
fractions and breach magnitudes, score `-(breaches.sum())`, and report the
merged breach locations. -/
def GCSpec.evaluate (self : GCSpec) (problemSequence : List Char) :
    SpecEval ℚ :=
  let location := self.location.getD ⟨0, problemSequence.length⟩
  let wstart := location.start
  let wend := location.stop
  let sequence := location.extractSequence problemSequence
  let gc := gcContent sequence self.window
  let breaches := gc.map (fun g => gcBreach self.mini self.maxi g)
  let score := -breaches.sum
  let starts := breachesStarts breaches
  { score := score,
    locations := breachesLocations self.window wstart wend starts }

/-- The result of `Specification.localized`: either the designated Void
specification (recording its parent) or a (possibly new) `EnforceGCContent`
specification. -/
inductive GCLocalized where
  | void (parent : GCSpec)
  | spec (s : GCSpec)
  deriving DecidableEq, Repr

/-- `EnforceGCContent.localized`: with a bound location, return `self` when
no window is set; otherwise return Void when the (unexpanded) query does not
overlap `self.location`, else a copy bound to the overlap of `self.location`
with the query extended by `window - 1`.  With no bound location, return a
copy bound to the query extended by `window + 1` (window set) or to `None`
(no window). -/
def GCSpec.localized (self : GCSpec) (location : Loc) : GCLocalized :=
  match self.location with
  | some selfLoc =>
    match self.window with
    | none => .spec self
    | some w =>
      match overlapRegion selfLoc location with
      | none => .void self
      | some _ =>
        let extendedLocation := location.extended (w - 1)
        .spec { self with location := overlapRegion selfLoc extendedLocation }
  | none =>
    match self.window with
    | some w => .spec { self with location := some (location.extended (w + 1)) }
    | none => .spec { self with location := none }

/-! ## Helper lemmas -/

theorem minByStart_mem (l : List (Nat × Nat)) (acc : Nat × Nat) :
    minByStart l acc = acc ∨ minByStart l acc ∈ l := by
  induction l generalizing acc with
  | nil => exact Or.inl rfl
  | cons p rest ih =>
    simp only [minByStart]
    rcases ih (if p.1 < acc.1 then p else acc) with h | h
    · rw [h]
      split
      · exact Or.inr (List.mem_cons_self _ _)
      · exact Or.inl rfl
    · exact Or.inr (List.mem_cons_of_mem _ h)

theorem minByStart_fst_le (l : List (Nat × Nat)) (acc : Nat × Nat) :
    (minByStart l acc).1 ≤ acc.1 ∧ ∀ p ∈ l, (minByStart l acc).1 ≤ p.1 := by
  induction l generalizing acc with
  | nil => exact ⟨le_refl _, by simp⟩
  | cons q rest ih =>
    simp only [minByStart]
    obtain ⟨h1, h2⟩ := ih (if q.1 < acc.1 then q else acc)
    refine ⟨h1.trans ?_, ?_⟩
    · split <;> omega
    · intro p hp
      rcases List.mem_cons.mp hp with rfl | hp
      · refine h1.trans ?_
        split <;> omega
      · exact h2 p hp

theorem firstOccurrence_mem (l : List (Nat × Nat)) (h : l ≠ []) :
    firstOccurrence l ∈ l := by
  match l with
  | [] => exact absurd rfl h
  | p :: rest =>
    simp only [firstOccurrence]
    rcases minByStart_mem rest p with h1 | h1
    · rw [h1]; exact List.mem_cons_self _ _
    · exact List.mem_cons_of_mem _ h1

theorem firstOccurrence_fst_le (l : List (Nat × Nat)) :
    ∀ p ∈ l, (firstOccurrence l).1 ≤ p.1 := by
  match l with
  | [] => intro p hp; simp at hp
  | q :: rest =>
    intro p hp
    simp only [firstOccurrence]
    obtain ⟨h1, h2⟩ := minByStart_fst_le rest q
    rcases List.mem_cons.mp hp with rfl | hp
    · exact h1
    · exact h2 p hp

/-- Structural description of `nonUniqueLocations`: its length counts the
distinct k-mer groups with more than one occurrence, it is sorted in the
lexicographic location order, each element is a minimal-start occurrence
of a group with more than one occurrence, and — completeness — every group
with more than one occurrence has its minimal-start occurrence Location in
the list. -/
theorem nonUniqueLocations_spec (sequence : List Char) (k : Nat) (rc : Bool) :
    (nonUniqueLocations sequence k rc).length =
      (((kmerEntries sequence k rc).map Prod.fst).dedup.filter
        (fun km =>
          1 < (kmerPositions (kmerEntries sequence k rc) km).length)).length ∧
    List.Pairwise locLe (nonUniqueLocations sequence k rc) ∧
    (∀ lc ∈ nonUniqueLocations sequence k rc, ∃ km,
      1 < (kmerPositions (kmerEntries sequence k rc) km).length ∧
      (lc.start, lc.stop) ∈ kmerPositions (kmerEntries sequence k rc) km ∧
      ∀ p ∈ kmerPositions (kmerEntries sequence k rc) km, lc.start ≤ p.1) ∧
    ∀ km, 1 < (kmerPositions (kmerEntries sequence k rc) km).length →
      Loc.mk (firstOccurrence (kmerPositions (kmerEntries sequence k rc)
            km)).1
          (firstOccurrence (kmerPositions (kmerEntries sequence k rc) km)).2 ∈
        nonUniqueLocations sequence k rc ∧
      firstOccurrence (kmerPositions (kmerEntries sequence k rc) km) ∈
        kmerPositions (kmerEntries sequence k rc) km ∧
      ∀ q ∈ kmerPositions (kmerEntries sequence k rc) km,
        (firstOccurrence (kmerPositions (kmerEntries sequence k rc) km)).1 ≤
          q.1 := by
  refine ⟨?_, ?_, ?_, ?_⟩
  · simp [nonUniqueLocations]
  · exact List.sorted_insertionSort locLe _
  · intro lc hlc
    simp only [nonUniqueLocations, List.mem_insertionSort, List.mem_map,
      List.mem_filter] at hlc
    obtain ⟨km, ⟨hkm, hlen⟩, rfl⟩ := hlc
    simp only [decide_eq_true_eq] at hlen
    have hne : kmerPositions (kmerEntries sequence k rc) km ≠ [] := by
      intro hnil
      rw [hnil] at hlen
      simp at hlen
    refine ⟨km, hlen, ?_, ?_⟩
    · simpa using firstOccurrence_mem _ hne
    · intro p hp
      simpa using firstOccurrence_fst_le _ p hp
  · intro km hkm
    have hne : kmerPositions (kmerEntries sequence k rc) km ≠ [] := by
      intro hnil
      rw [hnil] at hkm
      simp at hkm
    refine ⟨?_, firstOccurrence_mem _ hne, firstOccurrence_fst_le _⟩
    have hpos : 0 < ((kmerEntries sequence k rc).filter
        (fun e => e.1 = km)).length := by
      have h1 := hkm
      simp only [kmerPositions, List.length_map] at h1
      omega
    obtain ⟨e, he⟩ := List.exists_mem_of_length_pos hpos
    have he' := List.mem_filter.mp he
    have hkmem : km ∈ (kmerEntries sequence k rc).map Prod.fst :=
      List.mem_map.mpr ⟨e, he'.1, by simpa using he'.2⟩
    simp only [nonUniqueLocations, List.mem_insertionSort]
    exact List.mem_map.mpr ⟨km,
      List.mem_filter.mpr ⟨List.mem_dedup.mpr hkmem, by simpa using hkm⟩, rfl⟩

/-- On a bound specification, `AvoidNonuniqueSegments.evaluate` always
returns the record with score `-len(locations)` and the computed locations
(the two branches of the source agree when the location list is empty,
since `-0 = 0`). -/
theorem ANSSpec.evaluate_eq_of_bound (self : ANSSpec) (L : Loc) (probSeq : List Char)
    (hL : self.location = some L) :
    self.evaluate probSeq = some
      { score := -((nonUniqueLocations (L.extractSequence probSeq)
          self.min_length self.include_reverse_complement).length : Int),
        locations := nonUniqueLocations (L.extractSequence probSeq)
          self.min_length self.include_reverse_complement } := by
  simp only [ANSSpec.evaluate, hL, Option.map_some]
  by_cases hnil : nonUniqueLocations (L.extractSequence probSeq)
      self.min_length self.include_reverse_complement = []
  · simp [hnil]
  · simp [hnil]

theorem gcBreach_nonneg (mini maxi g : ℚ) : 0 ≤ gcBreach mini maxi g :=
  add_nonneg (le_max_left 0 _) (le_max_left 0 _)

theorem gcBreach_eq_zero_iff (mini maxi g : ℚ) :
    gcBreach mini maxi g = 0 ↔ (mini ≤ g ∧ g ≤ maxi) := by
  unfold gcBreach
  rw [add_eq_zero_iff_of_nonneg (le_max_left 0 _) (le_max_left 0 _)]
  simp [max_eq_left_iff, sub_nonpos]

theorem sum_nonneg_eq_zero_iff {l : List ℚ} (h : ∀ x ∈ l, 0 ≤ x) :
    l.sum = 0 ↔ ∀ x ∈ l, x = 0 :=
  ⟨fun hs _ hx => List.all_zero_of_le_zero_le_of_sum_eq_zero h hs hx,
   fun hz => List.sum_eq_zero hz⟩

theorem breachesStarts_eq_nil_iff (l : List ℚ) :
    breachesStarts l = [] ↔ ∀ b ∈ l, b ≤ 0 := by
  have hsnd : l.enum.map Prod.snd = l := List.enum_map_snd l
  simp only [breachesStarts, List.map_eq_nil_iff, List.filter_eq_nil_iff,
    decide_eq_true_eq]
  constructor
  · intro h b hb
    rw [← hsnd] at hb
    obtain ⟨p, hp, rfl⟩ := List.mem_map.mp hb
    exact not_lt.mp (h p hp)
  · intro h p hp
    have hmem : p.2 ∈ l := by
      rw [← hsnd]
      exact List.mem_map_of_mem _ hp
    exact not_lt.mpr (h p.2 hmem)

theorem mergeBreachRuns_ne_nil (w ws : Nat) (l : List Nat) (cs le : Nat) :
    mergeBreachRuns w ws l cs le ≠ [] := by
  induction l generalizing cs le with
  | nil => simp [mergeBreachRuns]
  | cons i rest ih =>
    simp only [mergeBreachRuns]
    split
    · simp
    · exact ih _ _

/-- The breach-location list of `EnforceGCContent.evaluate` is empty exactly
when the breach magnitudes sum to zero, provided the breaches are
non-negative and, without a window, number at most one (true of the breach
list actually built by `evaluate`, where a `None` window yields a single
whole-region GC value). -/
theorem breachesLocations_eq_nil_iff (window : Option Nat) (ws we : Nat)
    (breaches : List ℚ) (hnn : ∀ x ∈ breaches, 0 ≤ x)
    (hwin : window = none → breaches.length ≤ 1) :
    breachesLocations window ws we (breachesStarts breaches) = [] ↔
      breaches.sum = 0 := by
  rcases hs : breachesStarts breaches with _ | ⟨s, rest⟩
  · have hle : ∀ b ∈ breaches, b ≤ 0 := (breachesStarts_eq_nil_iff _).mp hs
    have hsum : breaches.sum = 0 := (sum_nonneg_eq_zero_iff hnn).mpr
      (fun x hx => le_antisymm (hle x hx) (hnn x hx))
    simp [breachesLocations, hsum]
  · have hpos : ∃ b ∈ breaches, 0 < b := by
      by_contra h
      push_neg at h
      rw [(breachesStarts_eq_nil_iff _).mpr h] at hs
      exact List.noConfusion hs
    obtain ⟨b, hb, hbpos⟩ := hpos
    have hsum : 0 < breaches.sum :=
      lt_of_lt_of_le hbpos (List.single_le_sum hnn b hb)
    have hne : breachesLocations window ws we (s :: rest) ≠ [] := by
      rcases rest with _ | ⟨s2, rest2⟩
      · cases window <;> simp [breachesLocations]
      · rcases hw : window with _ | w
        · exfalso
          have hlen : (breachesStarts breaches).length ≤ breaches.length := by
            simp only [breachesStarts, List.length_map]
            exact le_trans (List.length_filter_le _ _)
              (le_of_eq List.enum_length)
          rw [hs] at hlen
          have h1 := hwin hw
          simp at hlen
          omega
        · simpa [breachesLocations] using
            mergeBreachRuns_ne_nil w ws (s2 :: rest2) s (s + w)
    exact iff_of_false hne (ne_of_gt hsum)

/-- `GCSpec.evaluate` written out once, for rewriting. -/
theorem GCSpec.evaluate_expand (self : GCSpec) (probSeq : List Char) :
    self.evaluate probSeq =
      { score := -((gcContent ((self.location.getD
            ⟨0, probSeq.length⟩).extractSequence probSeq) self.window).map
          (fun g => gcBreach self.mini self.maxi g)).sum,
        locations := breachesLocations self.window
          (self.location.getD ⟨0, probSeq.length⟩).start
          (self.location.getD ⟨0, probSeq.length⟩).stop
          (breachesStarts ((gcContent ((self.location.getD
            ⟨0, probSeq.length⟩).extractSequence probSeq) self.window).map
              (fun g => gcBreach self.mini self.maxi g))) } := rfl

/-- `mergeBreachRuns` on exactly two breach starts, written out: the second
start opens a second location exactly when it lies further than `window`
past the first run's end. -/
theorem mergeBreachRuns_pair (w wstart s1 s2 : Nat) :
    mergeBreachRuns w wstart [s2] s1 (s1 + w) =
      if s1 + w + w < s2 then
        [⟨wstart + s1, wstart + (s1 + w)⟩, ⟨wstart + s2, wstart + (s2 + w)⟩]
      else
        [⟨wstart + s1, wstart + (s2 + w)⟩] := by
  by_cases h : s1 + w + w < s2 <;> simp [mergeBreachRuns, h]

unseal Rat.add Rat.mul Rat.inv Rat.sub

/-! ## Claim theorems -/

/-- C1: `AvoidNonuniqueSegments.evaluate` is claimed to build its occurrence
mapping from every k-mer start position `0 .. len(region) - min_length`
inclusive, and in particular to report score `-1` with breach `Location(0,4)`
on `"ATGCATGC"` with `min_length = 4`.  The code's loop bound
`range(len(sequence) - min_length)` is exclusive: on `"ATGCATGC"` it builds
only the 4 entries with start positions `0 .. 3`, omits the occurrence of
`"ATGC"` at `(4, 8)`, and returns score `0` with no breach, although
`"ATGC"` appears both at `(0,4)` and `(4,8)` in the sequence. -/
theorem C1_final_kmer_omitted_evaluates_to_zero :
    ANSSpec.evaluate ⟨4, some ⟨0, 8⟩, false⟩ ("ATGCATGC".toList) =
      some { score := 0, locations := [] } ∧
    (kmerEntries ("ATGCATGC".toList) 4 false).length = 4 ∧
    (∀ e ∈ kmerEntries ("ATGCATGC".toList) 4 false, e.2.1 ≤ 3) ∧
    (("ATGCATGC".toList).drop 0).take 4 = "ATGC".toList ∧
    (("ATGCATGC".toList).drop 4).take 4 = "ATGC".toList := by
  decide

/-- C5: for every bound `AvoidNonuniqueSegments` and problem sequence,
`evaluate` returns a score equal to the negated number of distinct k-mer
groups of the occurrence mapping that occur more than once, and its
breach-location list is sorted (lexicographically by `(start, end)`),
every listed location is a minimal-start occurrence of a group occurring
more than once, and — completeness — for every group occurring more than
once the list contains the Location of the group's first occurrence
(`min(positions_list, key=p[0])`, an occurrence of minimal start
position). -/
theorem C5_score_counts_nonunique_groups_and_locations_are_sorted_firsts
    (self : ANSSpec) (L : Loc) (probSeq : List Char)
    (hL : self.location = some L) :
    ∃ ev, self.evaluate probSeq = some ev ∧
      ev.score =
        -((((kmerEntries (L.extractSequence probSeq) self.min_length
            self.include_reverse_complement).map Prod.fst).dedup.filter
          (fun km =>
            1 < (kmerPositions
              (kmerEntries (L.extractSequence probSeq) self.min_length
                self.include_reverse_complement) km).length)).length : Int) ∧
      List.Pairwise locLe ev.locations ∧
      (∀ lc ∈ ev.locations, ∃ km,
        1 < (kmerPositions
          (kmerEntries (L.extractSequence probSeq) self.min_length
            self.include_reverse_complement) km).length ∧
        (lc.start, lc.stop) ∈ kmerPositions
          (kmerEntries (L.extractSequence probSeq) self.min_length
            self.include_reverse_complement) km ∧
        ∀ p ∈ kmerPositions
          (kmerEntries (L.extractSequence probSeq) self.min_length
            self.include_reverse_complement) km, lc.start ≤ p.1) ∧
      ∀ km, 1 < (kmerPositions
          (kmerEntries (L.extractSequence probSeq) self.min_length
            self.include_reverse_complement) km).length →
        Loc.mk (firstOccurrence (kmerPositions
              (kmerEntries (L.extractSequence probSeq) self.min_length
                self.include_reverse_complement) km)).1
            (firstOccurrence (kmerPositions
              (kmerEntries (L.extractSequence probSeq) self.min_length
                self.include_reverse_complement) km)).2 ∈ ev.locations ∧
        firstOccurrence (kmerPositions
            (kmerEntries (L.extractSequence probSeq) self.min_length
              self.include_reverse_complement) km) ∈
          kmerPositions (kmerEntries (L.extractSequence probSeq)
            self.min_length self.include_reverse_complement) km ∧
        ∀ q ∈ kmerPositions (kmerEntries (L.extractSequence probSeq)
            self.min_length self.include_reverse_complement) km,
          (firstOccurrence (kmerPositions
            (kmerEntries (L.extractSequence probSeq) self.min_length
              self.include_reverse_complement) km)).1 ≤ q.1 := by
  obtain ⟨hlen, hsorted, hmem, hcomplete⟩ :=
    nonUniqueLocations_spec (L.extractSequence probSeq) self.min_length
      self.include_reverse_complement
  refine ⟨_, ANSSpec.evaluate_eq_of_bound self L probSeq hL, ?_, hsorted,
    hmem, hcomplete⟩
  rw [← hlen]

/-- Witness for C5 at a concrete input: the specification
`AvoidNonuniqueSegments(4, Location(0,8), include_reverse_complement=True)`
on the problem sequence `"ATGCGCAT"`. -/
theorem C5_witness :
    ∃ ev, ANSSpec.evaluate ⟨4, some ⟨0, 8⟩, true⟩ ("ATGCGCAT".toList) =
        some ev ∧
      ev.score =
        -((((kmerEntries ((Loc.mk 0 8).extractSequence ("ATGCGCAT".toList)) 4
            true).map Prod.fst).dedup.filter
          (fun km =>
            1 < (kmerPositions
              (kmerEntries ((Loc.mk 0 8).extractSequence ("ATGCGCAT".toList))
                4 true) km).length)).length : Int) ∧
      List.Pairwise locLe ev.locations ∧
      (∀ lc ∈ ev.locations, ∃ km,
        1 < (kmerPositions
          (kmerEntries ((Loc.mk 0 8).extractSequence ("ATGCGCAT".toList)) 4
            true) km).length ∧
        (lc.start, lc.stop) ∈ kmerPositions
          (kmerEntries ((Loc.mk 0 8).extractSequence ("ATGCGCAT".toList)) 4
            true) km ∧
        ∀ p ∈ kmerPositions
          (kmerEntries ((Loc.mk 0 8).extractSequence ("ATGCGCAT".toList)) 4
            true) km, lc.start ≤ p.1) ∧
      ∀ km, 1 < (kmerPositions
          (kmerEntries ((Loc.mk 0 8).extractSequence ("ATGCGCAT".toList)) 4
            true) km).length →
        Loc.mk (firstOccurrence (kmerPositions
              (kmerEntries ((Loc.mk 0 8).extractSequence ("ATGCGCAT".toList))
                4 true) km)).1
            (firstOccurrence (kmerPositions
              (kmerEntries ((Loc.mk 0 8).extractSequence ("ATGCGCAT".toList))
                4 true) km)).2 ∈ ev.locations ∧
        firstOccurrence (kmerPositions
            (kmerEntries ((Loc.mk 0 8).extractSequence ("ATGCGCAT".toList)) 4
              true) km) ∈
          kmerPositions (kmerEntries
            ((Loc.mk 0 8).extractSequence ("ATGCGCAT".toList)) 4 true) km ∧
        ∀ q ∈ kmerPositions (kmerEntries
            ((Loc.mk 0 8).extractSequence ("ATGCGCAT".toList)) 4 true) km,
          (firstOccurrence (kmerPositions
            (kmerEntries ((Loc.mk 0 8).extractSequence ("ATGCGCAT".toList)) 4
              true) km)).1 ≤ q.1 :=
  C5_score_counts_nonunique_groups_and_locations_are_sorted_firsts
    ⟨4, some ⟨0, 8⟩, true⟩ ⟨0, 8⟩ ("ATGCGCAT".toList) rfl

/-- C6: on the sequence `"ATGC" + "GCAT"` (where `"GCAT"` is the reverse
complement of `"ATGC"`) with `min_length = 4`, `evaluate` with
`include_reverse_complement = True` reports a strictly negative score with a
non-empty breach list, while with `include_reverse_complement = False` it
reports score `0` with no breach. -/
theorem C6_reverse_complement_repeat_detected :
    reverseComplement ("ATGC".toList) = "GCAT".toList ∧
    (∃ ev, ANSSpec.evaluate ⟨4, some ⟨0, 8⟩, true⟩
        ("ATGC".toList ++ "GCAT".toList) = some ev ∧
      ev.score < 0 ∧ ev.locations ≠ []) ∧
    ANSSpec.evaluate ⟨4, some ⟨0, 8⟩, false⟩
        ("ATGC".toList ++ "GCAT".toList) =
      some { score := 0, locations := [] } := by
  refine ⟨by decide,
    ⟨⟨-4, [⟨0, 4⟩, ⟨1, 5⟩, ⟨1, 5⟩, ⟨2, 6⟩]⟩, by decide, by decide, by decide⟩,
    by decide⟩

/-- C7: for every bound `AvoidNonuniqueSegments` and query location,
`localized` returns the Void specification exactly when the query does not
overlap the bound location, and otherwise returns the specification itself
unchanged. -/
theorem C7_localized_is_void_iff_no_overlap_else_self
    (self : ANSSpec) (L : Loc) (query : Loc)
    (hL : self.location = some L) :
    (self.localized query = some (.void self) ↔
      overlapRegion L query = none) ∧
    (self.localized query = some (.spec self) ↔
      overlapRegion L query ≠ none) := by
  simp only [ANSSpec.localized, hL, Option.map_some]
  rcases h : overlapRegion L query with _ | v <;> simp [h]

/-- Witness for C7 at a concrete input: a specification bound to
`Location(0, 8)` queried with the disjoint location `Location(10, 12)`. -/
theorem C7_witness :
    (ANSSpec.localized ⟨4, some ⟨0, 8⟩, false⟩ ⟨10, 12⟩ =
        some (.void ⟨4, some ⟨0, 8⟩, false⟩) ↔
      overlapRegion ⟨0, 8⟩ ⟨10, 12⟩ = none) ∧
    (ANSSpec.localized ⟨4, some ⟨0, 8⟩, false⟩ ⟨10, 12⟩ =
        some (.spec ⟨4, some ⟨0, 8⟩, false⟩) ↔
      overlapRegion ⟨0, 8⟩ ⟨10, 12⟩ ≠ none) :=
  C7_localized_is_void_iff_no_overlap_else_self
    ⟨4, some ⟨0, 8⟩, false⟩ ⟨0, 8⟩ ⟨10, 12⟩ rfl

/-- C2 counterexample: the claim says `localized` returns Void exactly when
the intersection of the *expanded* query with the bound location is empty.
For the bound location `Location(0,10)`, `window = 5` and the query
`Location(12,14)`, the query expanded by `window - 1 = 4` overlaps the bound
location in `Location(8,10)`, yet the code returns Void, because the source
tests `self.location.overlap_region(location)` on the *unexpanded* query
first. -/
theorem C2_counterexample_void_despite_expanded_overlap :
    overlapRegion ⟨0, 10⟩ (Loc.extended ⟨12, 14⟩ (5 - 1)) = some ⟨8, 10⟩ ∧
    GCSpec.localized
        { target := none, mini := 2/5, maxi := 3/5, window := some 5,
          location := some ⟨0, 10⟩, boost := 1 } ⟨12, 14⟩ =
      GCLocalized.void
        { target := none, mini := 2/5, maxi := 3/5, window := some 5,
          location := some ⟨0, 10⟩, boost := 1 } := by
  exact ⟨by decide, by decide⟩

/-- C2 (amended): for every bound `EnforceGCContent` with a window
`w ≥ 1`, `localized` returns Void exactly when the *unexpanded* query does
not overlap the specification's own location; when it does overlap, the
result is a copy bound to the intersection of the own location with the
query expanded by `w - 1` on both sides.  (`w ≥ 1` matches every real
window; for `w = 0` the Python code would extend by `-1`, which the `Nat`
model does not represent.) -/
theorem C2_localized_tests_unexpanded_overlap_then_expands
    (self : GCSpec) (L : Loc) (w : Nat) (query : Loc)
    (hL : self.location = some L) (hw : self.window = some w)
    (hw1 : 1 ≤ w) :
    (self.localized query = .void self ↔ overlapRegion L query = none) ∧
    (overlapRegion L query ≠ none →
      self.localized query =
        GCLocalized.spec
          { self with
            location := overlapRegion L (query.extended (w - 1)) }) := by
  have _ := hw1
  simp only [GCSpec.localized, hL, hw]
  rcases h : overlapRegion L query with _ | v <;> simp [h]

/-- Witness for C2's amended theorem at a concrete input: a specification
bound to `Location(0,10)` with `window = 5`, queried with the overlapping
location `Location(0,3)`. -/
theorem C2_witness :
    (GCSpec.localized
        { target := none, mini := 2/5, maxi := 3/5, window := some 5,
          location := some ⟨0, 10⟩, boost := 1 } ⟨0, 3⟩ =
      GCLocalized.void
        { target := none, mini := 2/5, maxi := 3/5, window := some 5,
          location := some ⟨0, 10⟩, boost := 1 } ↔
      overlapRegion ⟨0, 10⟩ ⟨0, 3⟩ = none) ∧
    (overlapRegion ⟨0, 10⟩ ⟨0, 3⟩ ≠ none →
      GCSpec.localized
        { target := none, mini := 2/5, maxi := 3/5, window := some 5,
          location := some ⟨0, 10⟩, boost := 1 } ⟨0, 3⟩ =
      GCLocalized.spec
        { target := none, mini := 2/5, maxi := 3/5, window := some 5,
          location := overlapRegion ⟨0, 10⟩ (Loc.extended ⟨0, 3⟩ (5 - 1)),
          boost := 1 }) :=
  C2_localized_tests_unexpanded_overlap_then_expands
    { target := none, mini := 2/5, maxi := 3/5, window := some 5,
      location := some ⟨0, 10⟩, boost := 1 } ⟨0, 10⟩ 5 ⟨0, 3⟩
    rfl rfl (by decide)

/-- C3: for every `EnforceGCContent` and sequence, the score equals the
negated sum, over all evaluated windows (a single whole-region value when
`window` is `None`), of `max(0, mini - gc) + max(0, gc - maxi)`; hence the
score is `0` exactly when every window's GC fraction lies within
`[mini, maxi]`. -/
theorem C3_score_is_negated_breach_sum_and_zero_iff_compliant
    (self : GCSpec) (probSeq : List Char) :
    (self.evaluate probSeq).score =
      -((gcContent ((self.location.getD
          ⟨0, probSeq.length⟩).extractSequence probSeq) self.window).map
        (fun g => gcBreach self.mini self.maxi g)).sum ∧
    ((self.evaluate probSeq).score = 0 ↔
      ∀ g ∈ gcContent ((self.location.getD
          ⟨0, probSeq.length⟩).extractSequence probSeq) self.window,
        self.mini ≤ g ∧ g ≤ self.maxi) := by
  rw [GCSpec.evaluate_expand]
  refine ⟨rfl, ?_⟩
  have hnn : ∀ x ∈ (gcContent ((self.location.getD
      ⟨0, probSeq.length⟩).extractSequence probSeq) self.window).map
        (fun g => gcBreach self.mini self.maxi g), 0 ≤ x := by
    intro x hx
    obtain ⟨g, _, rfl⟩ := List.mem_map.mp hx
    exact gcBreach_nonneg _ _ _
  simp only [neg_eq_zero]
  rw [sum_nonneg_eq_zero_iff hnn]
  constructor
  · intro h g hg
    exact (gcBreach_eq_zero_iff _ _ _).mp (h _ (List.mem_map_of_mem _ hg))
  · intro h x hx
    obtain ⟨g, hg, rfl⟩ := List.mem_map.mp hx
    exact (gcBreach_eq_zero_iff _ _ _).mpr (h g hg)

/-- C4: in the merging loop of `EnforceGCContent.evaluate`, the next breach
start `s2` is merged into the current run `[s1, s1 + w)` exactly when it is
no further than `w` past the run's end `s1 + w` (one location results
instead of two); in particular, on a sequence whose breaching
5-windows start exactly at positions 10 and 12 (shown for
`"AAAAAAAAAAGAGGGAG"` with `mini = 0`, `maxi = 3/5`), `evaluate` reports the
single merged `Location(10, 17)`. -/
theorem C4_breach_runs_merge_within_window_gap :
    (∀ (w wstart s1 s2 : Nat),
      (mergeBreachRuns w wstart [s2] s1 (s1 + w)).length = 1 ↔
        s2 ≤ (s1 + w) + w) ∧
    breachesStarts ((gcContent ("AAAAAAAAAAGAGGGAG".toList) (some 5)).map
      (fun g => gcBreach 0 (3/5) g)) = [10, 12] ∧
    GCSpec.evaluate
        { target := none, mini := 0, maxi := 3/5, window := some 5,
          location := none, boost := 1 } ("AAAAAAAAAAGAGGGAG".toList) =
      { score := -(2/5 : ℚ), locations := [⟨10, 17⟩] } := by
  refine ⟨?_, by decide, by decide⟩
  intro w wstart s1 s2
  rw [mergeBreachRuns_pair]
  by_cases h : s1 + w + w < s2 <;> simp [h] <;> omega

/-- C8: for both variants, `initialize_on_problem` yields a specification
whose location is the full-sequence range `Location(0, len)` when it was
originally unset (and the original location otherwise), and applying it a
second time with the same problem changes nothing (idempotence). -/
theorem C8_initialize_on_problem_binds_full_range_idempotently
    (g : GCSpec) (a : ANSSpec) (n : Nat) :
    (g.initialize_on_problem n).location = some (g.location.getD ⟨0, n⟩) ∧
    (g.initialize_on_problem n).initialize_on_problem n =
      g.initialize_on_problem n ∧
    (a.initialize_on_problem n).location = some (a.location.getD ⟨0, n⟩) ∧
    (a.initialize_on_problem n).initialize_on_problem n =
      a.initialize_on_problem n := by
  rcases hg : g.location with _ | Lg <;> rcases ha : a.location with _ | La <;>
    simp [GCSpec.initialize_on_problem, ANSSpec.initialize_on_problem, hg, ha]

/-- C9 counterexample: the claim says constructing `EnforceGCContent` with
`mini > maxi` raises at construction time.  The constructor body performs no
validation: called with `mini = 9/10 > maxi = 1/10` it returns normally,
storing the values verbatim, and the misconfiguration only surfaces at
`evaluate` as a negative score (here on `"ATGC"`). -/
theorem C9_counterexample_construction_accepts_mini_gt_maxi :
    GCSpec.init (9/10) (1/10) none none none 1 =
      { target := none, mini := 9/10, maxi := 1/10, window := none,
        location := none, boost := 1 } ∧
    ((1 : ℚ)/10 < 9/10) ∧
    GCSpec.evaluate (GCSpec.init (9/10) (1/10) none none none 1)
        ("ATGC".toList) =
      { score := -(4/5 : ℚ), locations := [⟨0, 4⟩] } := by
  exact ⟨rfl, by norm_num, by decide⟩

/-- C9 (amended): the `EnforceGCContent` constructor accepts every parameter
combination, `mini > maxi` included, storing the parameters verbatim with no
validation; the failure is deferred to `evaluate`, where every evaluated
window breaches by at least `mini - maxi`. -/
theorem C9_constructor_stores_parameters_without_validation
    (mini maxi boost : ℚ) (window : Option Nat) (location : Option Loc)
    (g : ℚ) :
    (GCSpec.init mini maxi none window location boost).mini = mini ∧
    (GCSpec.init mini maxi none window location boost).maxi = maxi ∧
    (GCSpec.init mini maxi none window location boost).window = window ∧
    (GCSpec.init mini maxi none window location boost).location = location ∧
    mini - maxi ≤ gcBreach mini maxi g := by
  refine ⟨rfl, rfl, rfl, rfl, ?_⟩
  unfold gcBreach
  have h1 : mini - g ≤ max 0 (mini - g) := le_max_right _ _
  have h2 : g - maxi ≤ max 0 (g - maxi) := le_max_right _ _
  linarith

/-- C10: for every problem, the evaluation returned by
`EnforceGCContent.evaluate` and by `AvoidNonuniqueSegments.evaluate` has a
never strictly positive score, and its breach-location list is empty exactly
when the score is `0`. -/
theorem C10_scores_nonpositive_and_locations_empty_iff_zero
    (g : GCSpec) (a : ANSSpec) (probSeqG probSeqA : List Char) :
    ((g.evaluate probSeqG).score ≤ 0 ∧
      ((g.evaluate probSeqG).locations = [] ↔
        (g.evaluate probSeqG).score = 0)) ∧
    (∀ ev ∈ a.evaluate probSeqA,
      ev.score ≤ 0 ∧ (ev.locations = [] ↔ ev.score = 0)) := by
  constructor
  · rw [GCSpec.evaluate_expand]
    have hnn : ∀ x ∈ (gcContent ((g.location.getD
        ⟨0, probSeqG.length⟩).extractSequence probSeqG) g.window).map
          (fun x => gcBreach g.mini g.maxi x), 0 ≤ x := by
      intro x hx
      obtain ⟨y, _, rfl⟩ := List.mem_map.mp hx
      exact gcBreach_nonneg _ _ _
    have hwin : g.window = none → ((gcContent ((g.location.getD
        ⟨0, probSeqG.length⟩).extractSequence probSeqG) g.window).map
          (fun x => gcBreach g.mini g.maxi x)).length ≤ 1 := by
      intro hw
      simp [gcContent, hw]
    refine ⟨neg_nonpos.mpr (List.sum_nonneg hnn), ?_⟩
    rw [breachesLocations_eq_nil_iff _ _ _ _ hnn hwin, neg_eq_zero]
  · intro ev hev
    rcases ha : a.location with _ | L
    · simp [ANSSpec.evaluate, ha] at hev
    · rw [ANSSpec.evaluate_eq_of_bound a L probSeqA ha] at hev
      simp only [Option.mem_def, Option.some_inj] at hev
      subst hev
      refine ⟨by simp, ?_⟩
      simp [neg_eq_zero, List.length_eq_zero]

end DnaChisel


